import Mathlib

/-!
Verification of the series-math, screening and data-degradation behaviour of the
stocks_trading scanners (scan_stocks.py, scan_ma20.py, scan_sgx.py,
dedupe_symbols.py).  Python floats are modelled as exact rationals together with
an explicit NaN sentinel; price series that may contain missing bars are lists
of optional rationals.  Every definition is a direct translation of the
corresponding Python function.
-/

namespace StockScan

/- ===================== DEFINITIONS ===================== -/

/-- A Python float value: either the NaN sentinel or a finite value, modelled
as an exact rational. -/
inductive FVal where
  | nan : FVal
  | fin : ℚ → FVal
deriving DecidableEq, Repr

/-- Translation of the scripts' is_finite helper (values are exact, so a
constructed finite value is always finite). -/
def FVal.isFinite : FVal → Bool
  | .nan => false
  | .fin _ => true

/-- Numeric projection of a finite value; 0 on the NaN sentinel (only ever used
under a finiteness assumption). -/
def FVal.val : FVal → ℚ
  | .nan => 0
  | .fin q => q

/-- Translation of mean(vals) from scan_stocks.py / scan_ma20.py / scan_sgx.py:
sum(vals)/len(vals) if vals else nan. -/
def pyMean (l : List ℚ) : FVal :=
  if l = [] then .nan else .fin (l.sum / l.length)

/-- Python slice l[-w:]: the last w elements (the whole list when w = 0 or when
w exceeds the length; natural subtraction gives the clamping for free). -/
def pySliceLast (l : List ℚ) (w : Nat) : List ℚ :=
  if w = 0 then l else l.drop (l.length - w)

/-- Translation of ma_last(closes_valid, n) from scan_stocks.py lines 257-262
(identical in scan_sgx.py): NaN if fewer than n closes, else the mean of the
last n closes. -/
def ma_last (closes : List ℚ) (n : Nat) : FVal :=
  if closes.length < n then .nan else pyMean (pySliceLast closes n)

/-- Python indexing pattern highs[i] if i < len(highs) else None used by
compute_atr. -/
def pyGet (l : List (Option ℚ)) (i : Nat) : Option ℚ :=
  l.getD i none

/-- N = max(len(highs), len(lows), len(closes)) in compute_atr. -/
def atrLen (hs ls cs : List (Option ℚ)) : Nat :=
  max (max hs.length ls.length) cs.length

/-- One iteration of the compute_atr loop body (scan_stocks.py lines 270-283):
state is (prev_close, tr_list). Sessions with a missing high or low are
skipped; the previous close is carried forward whenever the current close is
missing.  Over exact rationals the isfinite(tr) guard of the source always
passes, so the computed true range is always appended. -/
def atrStep (st : Option ℚ × List ℚ) (h l c : Option ℚ) : Option ℚ × List ℚ :=
  match h, l with
  | some hv, some lv =>
      let tr :=
        match st.1 with
        | none => hv - lv
        | some pc => max (hv - lv) (max |hv - pc| |lv - pc|)
      (if c.isSome then c else st.1, st.2 ++ [tr])
  | _, _ => (if c.isSome then c else st.1, st.2)

/-- The tr_list accumulated by the compute_atr loop of scan_stocks.py
(lines 267-283); compute_atr20 of scan_ma20.py and compute_atr14 of
scan_sgx.py run the identical loop. -/
def trueRanges (hs ls cs : List (Option ℚ)) : List ℚ :=
  ((List.range (atrLen hs ls cs)).foldl
    (fun st i => atrStep st (pyGet hs i) (pyGet ls i) (pyGet cs i)) (none, [])).2

/-- Translation of compute_atr(highs, lows, closes, window) from scan_stocks.py
lines 265-288: NaN when no valid true range exists, else the mean of the last
up-to-window true-range values. -/
def compute_atr (hs ls cs : List (Option ℚ)) (window : Nat) : FVal :=
  let trs := trueRanges hs ls cs
  if trs = [] then .nan else pyMean (pySliceLast trs window)

/-- The last non-missing value of a list of optional rationals (the value the
prev_close variable holds after scanning the list). -/
def lastSome (l : List (Option ℚ)) : Option ℚ :=
  l.foldl (fun acc o => if o.isSome then o else acc) none

/-- Specification-level true range of session i, following the spec text for
average_true_range: sessions with a missing high or low yield no true range;
otherwise TR = max(high-low, abs(high-prev_close), abs(low-prev_close)) where
prev_close is the last valid close before session i (high-low when none
exists). -/
def trAt (hs ls cs : List (Option ℚ)) (i : Nat) : Option ℚ :=
  match pyGet hs i, pyGet ls i with
  | some h, some l =>
      some
        (match lastSome (cs.take i) with
        | none => h - l
        | some pc => max (h - l) (max |h - pc| |l - pc|))
  | _, _ => none

/-- Specification-level list of valid true-range values of a session range. -/
def trSpecList (hs ls cs : List (Option ℚ)) : List ℚ :=
  (List.range (atrLen hs ls cs)).filterMap (trAt hs ls cs)

/-- One iteration of the first-difference loop of rsi_wilder_14 (scan_sgx.py
lines 243-251): missing closes are skipped, the first valid close only seeds
prev, later valid closes append (c - prev). -/
def diffStep (st : Option ℚ × List ℚ) (c : Option ℚ) : Option ℚ × List ℚ :=
  match c with
  | none => st
  | some cv =>
      match st.1 with
      | none => (some cv, st.2)
      | some prev => (some cv, st.2 ++ [cv - prev])

/-- The diffs list built by rsi_wilder_14 of scan_sgx.py. -/
def diffsOf (closes : List (Option ℚ)) : List ℚ :=
  (closes.foldl diffStep (none, [])).2

/-- Specification-level first differences of a fully valid close series
starting after the value prev. -/
def diffsFrom (prev : ℚ) : List ℚ → List ℚ
  | [] => []
  | x :: xs => (x - prev) :: diffsFrom x xs

/-- Wilder recurrence step of scan_sgx.py lines 259-263:
avg = (avg * 13 + new) / 14 for the gain and loss averages. -/
def wilderStep (p : ℚ × ℚ) (gl : ℚ × ℚ) : ℚ × ℚ :=
  ((p.1 * 13 + gl.1) / 14, (p.2 * 13 + gl.2) / 14)

/-- Final (avg_gain, avg_loss) of rsi_wilder_14 (scan_sgx.py lines 255-263):
simple-mean seed over the first 14 gains and losses, then the Wilder
recurrence over the remaining ones. -/
def wilderAvgs (diffs : List ℚ) : ℚ × ℚ :=
  let gains := diffs.map (fun d => max d 0)
  let losses := diffs.map (fun d => max (-d) 0)
  let ag0 := (gains.take 14).sum / 14
  let al0 := (losses.take 14).sum / 14
  ((gains.drop 14).zip (losses.drop 14)).foldl wilderStep (ag0, al0)

/-- Translation of rsi_wilder_14(closes) from scan_sgx.py lines 239-267: NaN on
fewer than 15 raw closes or fewer than 14 valid differences; otherwise the edge
rule (avg_loss = 0 gives 100 when avg_gain positive, else 50) or the RSI
formula 100 - 100/(1 + avg_gain/avg_loss). -/
def rsi_wilder_14 (closes : List (Option ℚ)) : FVal :=
  if closes.length < 15 then .nan
  else
    let diffs := diffsOf closes
    if diffs.length < 14 then .nan
    else
      let p := wilderAvgs diffs
      if p.2 = 0 then (if 0 < p.1 then .fin 100 else .fin 50)
      else .fin (100 - 100 / (1 + p.1 / p.2))

/-- The x values list(range(n)) of linreg_slope_r2, as rationals. -/
def idxList (n : Nat) : List ℚ :=
  (List.range n).map (fun (i : ℕ) => (i : ℚ))

/-- Mean sum(l)/n as computed inside linreg_slope_r2 (n is the positive
length of the list there). -/
def meanQ (l : List ℚ) : ℚ :=
  l.sum / l.length

/-- The cov accumulator of linreg_slope_r2 (scan_sgx.py line 312). -/
def covXY (y : List ℚ) : ℚ :=
  (((idxList y.length).zip y).map
    (fun p => (p.1 - meanQ (idxList y.length)) * (p.2 - meanQ y))).sum

/-- The var_x accumulator of linreg_slope_r2 (scan_sgx.py line 313). -/
def varX (y : List ℚ) : ℚ :=
  ((idxList y.length).map (fun x => (x - meanQ (idxList y.length)) ^ 2)).sum

/-- The var_y accumulator of linreg_slope_r2 (scan_sgx.py line 314). -/
def varY (y : List ℚ) : ℚ :=
  (y.map (fun v => (v - meanQ y) ^ 2)).sum

/-- Translation of linreg_slope_r2(y_vals) from scan_sgx.py lines 304-323.
The source computes r = cov/sqrt(var_x*var_y) and returns r*r*100; over exact
values the square of that quotient is cov^2/(var_x*var_y), which removes the
square root. -/
def linreg_slope_r2 (y : List ℚ) : FVal × FVal :=
  if y.length < 2 then (.nan, .nan)
  else if varX y = 0 then (.nan, .nan)
  else
    (.fin (covXY y / varX y),
      if varX y = 0 ∨ varY y = 0 then .nan
      else .fin (covXY y ^ 2 / (varX y * varY y) * 100))

/-- The seen-set de-duplication loop of dedupe_symbols.py lines 74-79;
dict.fromkeys in scan_stocks.py line 498 (and scan_ma20.py line 459,
scan_sgx.py line 416) has the same first-occurrence semantics. -/
def firstKeysAux (seen : List String) : List String → List String
  | [] => []
  | s :: rest =>
      if s ∈ seen then firstKeysAux seen rest
      else s :: firstKeysAux (s :: seen) rest

/-- De-duplicated symbol list, each symbol kept at its first occurrence. -/
def firstKeys (l : List String) : List String :=
  firstKeysAux [] l

/-- The duplicate report of scan_stocks.py lines 489-490 (and
dedupe_symbols.py lines 58-71): every symbol whose total count exceeds one,
with its count, iterated in first-insertion order (Counter preserves
insertion order). -/
def dupReport (l : List String) : List (String × Nat) :=
  (firstKeys l).filterMap
    (fun s => if 1 < l.count s then some (s, l.count s) else none)

/-- The include list of scan_stocks.py lines 497-499: de-duplicate in
first-occurrence order, then drop everything in the normalized exclude set. -/
def symbolsAfterExclude (l excl : List String) : List String :=
  (firstKeys l).filter (fun s => decide (s ∉ excl))

/-- The five fundamental fields returned by fetch_fundamentals of
scan_ma20.py. -/
structure Fund where
  pe_ttm : FVal
  pe_fwd : FVal
  div_yield_pct : FVal
  div_yield_5y_pct : FVal
  profit_margin_pct : FVal
deriving DecidableEq, Repr

/-- Python or-chaining on optional numbers as used for the P/E fields:
both None and 0.0 are falsy, so a present zero still falls through. -/
def pyOrQ (a b : Option ℚ) : Option ℚ :=
  match a with
  | some x => if x = 0 then b else some x
  | none => b

/-- Conversion float(v) if isinstance(v, (int, float)) else nan: the value is
used as-is when present. -/
def asIsOfOpt (o : Option ℚ) : FVal :=
  match o with
  | some v => .fin v
  | none => .nan

/-- Conversion (v * 100.0) if isinstance(v, (int, float)) else nan: a
fraction-valued ratio is scaled to percent when present. -/
def pctOfOpt (o : Option ℚ) : FVal :=
  match o with
  | some v => .fin (v * 100)
  | none => .nan

/-- Numeric fields available to the structured quoteSummary tier of
fetch_fundamentals (scan_ma20.py lines 233-267) after raw-envelope
unwrapping; a missing field is none. -/
structure SummaryData where
  sd_trailingPE : Option ℚ
  ks_trailingPE : Option ℚ
  price_trailingPE : Option ℚ
  sd_forwardPE : Option ℚ
  ks_forwardPE : Option ℚ
  sd_dividendYield : Option ℚ
  sd_trailingAnnualDividendYield : Option ℚ
  sd_fiveYearAvgDividendYield : Option ℚ
  fd_profitMargins : Option ℚ
deriving DecidableEq, Repr

/-- Field extraction and scaling of the quoteSummary tier (scan_ma20.py
lines 243-267). -/
def parseSummaryTier (d : SummaryData) : Fund :=
  { pe_ttm := asIsOfOpt (pyOrQ (pyOrQ d.sd_trailingPE d.ks_trailingPE) d.price_trailingPE)
    pe_fwd := asIsOfOpt (pyOrQ d.sd_forwardPE d.ks_forwardPE)
    div_yield_pct :=
      pctOfOpt (d.sd_dividendYield.orElse fun _ => d.sd_trailingAnnualDividendYield)
    div_yield_5y_pct := asIsOfOpt d.sd_fiveYearAvgDividendYield
    profit_margin_pct := pctOfOpt d.fd_profitMargins }

/-- Numeric fields available to the flat v7 quote tier of fetch_fundamentals
(scan_ma20.py lines 272-300). -/
structure QuoteData where
  trailingPE : Option ℚ
  forwardPE : Option ℚ
  dividendYield : Option ℚ
  trailingAnnualDividendYield : Option ℚ
  fiveYearAvgDividendYield : Option ℚ
  profitMargins : Option ℚ
deriving DecidableEq, Repr

/-- Field extraction and scaling of the flat v7 quote tier (scan_ma20.py
lines 278-300). -/
def parseQuoteTier (q : QuoteData) : Fund :=
  { pe_ttm := asIsOfOpt q.trailingPE
    pe_fwd := asIsOfOpt q.forwardPE
    div_yield_pct := pctOfOpt (q.dividendYield.orElse fun _ => q.trailingAnnualDividendYield)
    div_yield_5y_pct := asIsOfOpt q.fiveYearAvgDividendYield
    profit_margin_pct := pctOfOpt q.profitMargins }

/-- Field extraction and scaling of the HTML-scrape tier (scan_ma20.py
lines 315-350), working on the same unwrapped stores as the quoteSummary
tier. -/
def parseScrapeTier (d : SummaryData) : Fund :=
  { pe_ttm := asIsOfOpt (pyOrQ (pyOrQ d.sd_trailingPE d.ks_trailingPE) d.price_trailingPE)
    pe_fwd := asIsOfOpt (pyOrQ d.sd_forwardPE d.ks_forwardPE)
    div_yield_pct :=
      pctOfOpt (d.sd_dividendYield.orElse fun _ => d.sd_trailingAnnualDividendYield)
    div_yield_5y_pct := asIsOfOpt d.sd_fiveYearAvgDividendYield
    profit_margin_pct := pctOfOpt d.fd_profitMargins }

/-- The _nan_result record of fetch_fundamentals (scan_ma20.py lines 215-222),
returned after every attempt has failed (line 358). -/
def nan_result : Fund :=
  { pe_ttm := .nan, pe_fwd := .nan, div_yield_pct := .nan,
    div_yield_5y_pct := .nan, profit_margin_pct := .nan }

/-- Fallback chain of fetch_fundamentals (scan_ma20.py lines 214-358): the
outcomes of the up to six attempts in order (two quoteSummary hosts, two v7
quote hosts, two HTML pages); none records an attempt that raised or yielded
no usable payload.  The first successful attempt's record is returned; when
every attempt fails the all-NaN record is returned and no exception
escapes. -/
def fetch_fundamentals : List (Option Fund) → Fund
  | [] => nan_result
  | some f :: _ => f
  | none :: rest => fetch_fundamentals rest

/-- Per-symbol data available to the scan loop of scan_ma20.py lines 471-510:
the outcome of the price-history fetch (error = the exception message raised
inside the try block, ok = the latest close) and the fundamentals attempt
outcomes. -/
structure SymData where
  chart : Except String ℚ
  fundAttempts : List (Option Fund)

/-- The per-symbol result row (identity, latest close, fundamentals). -/
structure Row where
  code : String
  latest : ℚ
  fund : Fund
deriving DecidableEq, Repr

/-- One iteration of the scan loop of scan_ma20.py lines 471-510: on a
price-history exception the symbol is skipped (only a warning is printed),
otherwise a row is appended with fetch_fundamentals supplying the fundamental
fields. -/
def scanStep (env : String → SymData) (acc : List Row) (s : String) : List Row :=
  match (env s).chart with
  | .ok latest =>
      acc ++ [{ code := s, latest := latest,
                fund := fetch_fundamentals (env s).fundAttempts }]
  | .error _ => acc

/-- The scan loop over the whole symbol batch. -/
def scanLoop (env : String → SymData) (syms : List String) : List Row :=
  syms.foldl (scanStep env) []

/-- A screened record as relevant to filtering and sorting: the display
symbol together with the value of the chosen sort metric (Delta%, Z-ATR or
ATR-LC%). -/
abbrev SRec := String × FVal

/-- The test is_finite(v) and v <= thr of the Delta% filter branch for
non-positive thresholds (scan_stocks.py lines 622-626); a NaN metric never
passes, as in Python where a NaN comparison is false. -/
def finLe (v : FVal) (thr : ℚ) : Bool :=
  match v with
  | .fin q => decide (q ≤ thr)
  | .nan => false

/-- The test is_finite(v) and v > thr of the Delta% filter branch for
positive thresholds (scan_stocks.py lines 629-633). -/
def finGt (v : FVal) (thr : ℚ) : Bool :=
  match v with
  | .fin q => decide (thr < q)
  | .nan => false

/-- The base admissibility filter of scan_stocks.py line 596: keep only
records whose Delta% is finite. -/
def baseFiltered (rs : List SRec) : List SRec :=
  rs.filter (fun r => r.2.isFinite)

/-- The numeric Delta% threshold filter of scan_stocks.py lines 619-634: a
threshold of at most 0 keeps records with Delta% at most the threshold, a
positive threshold keeps records with Delta% strictly above it; none means
the flag was not given. -/
def deltaFilter (thres : Option ℚ) (rs : List SRec) : List SRec :=
  match thres with
  | none => rs
  | some thr =>
      if thr ≤ 0 then rs.filter (fun r => r.2.isFinite && finLe r.2 thr)
      else rs.filter (fun r => r.2.isFinite && finGt r.2 thr)

/-- The sort direction for sort_by delta (scan_stocks.py lines 666-679):
descending exactly when a positive numeric threshold was given. -/
def deltaDescending (thres : Option ℚ) : Bool :=
  match thres with
  | none => false
  | some thr => decide (0 < thr)

/-- The sort_key comparison of scan_stocks.py lines 694-703 (same shape in
scan_sgx.py lines 520-523) as a total boolean order: the lexicographic
comparison of the key tuples, which are (0, v) for a finite metric ((0, -v)
when descending) and (1, inf) for a non-finite metric. -/
def sortLe (desc : Bool) (a b : SRec) : Bool :=
  match a.2, b.2 with
  | .nan, .nan => true
  | .nan, .fin _ => false
  | .fin _, .nan => true
  | .fin x, .fin y => if desc then decide (y ≤ x) else decide (x ≤ y)

/-- The stable key sort filtered.sort(key=sort_key) of scan_stocks.py
line 703, modelled as a stable insertion sort on the key order. -/
def sortRecords (desc : Bool) (rs : List SRec) : List SRec :=
  List.insertionSort (fun a b => sortLe desc a b = true) rs

/-- The delta path of the scan_stocks.py pipeline with the z/atr/regime
filters absent: base admissibility filter, numeric Delta% threshold filter,
then the sort whose direction is derived from the threshold sign. -/
def deltaPipeline (thres : Option ℚ) (rs : List SRec) : List SRec :=
  sortRecords (deltaDescending thres) (deltaFilter thres (baseFiltered rs))

/-- The relation that holds along the sorted output: finite metrics ordered
by value (reversed when descending), every non-finite metric after every
finite one. -/
def metricOrdered (desc : Bool) (a b : SRec) : Prop :=
  match a.2, b.2 with
  | .fin x, .fin y => if desc then y ≤ x else x ≤ y
  | .fin _, .nan => True
  | .nan, .nan => True
  | .nan, .fin _ => False

/- ===================== THEOREMS ===================== -/

theorem pySliceLast_of_length_le {l : List ℚ} {w : Nat} (h : l.length ≤ w) :
    pySliceLast l w = l := by
  unfold pySliceLast
  split
  · rfl
  · rw [Nat.sub_eq_zero_of_le h, List.drop_zero]

theorem lastSome_append_singleton (l : List (Option ℚ)) (o : Option ℚ) :
    lastSome (l ++ [o]) = if o.isSome then o else lastSome l := by
  unfold lastSome
  rw [List.foldl_append]
  rfl

theorem lastSome_take_succ (cs : List (Option ℚ)) (n : Nat) :
    lastSome (cs.take (n + 1)) =
      if (pyGet cs n).isSome then pyGet cs n else lastSome (cs.take n) := by
  have htake : cs.take (n + 1) = cs.take n ++ cs[n]?.toList := List.take_succ
  have hget : pyGet cs n = cs[n]?.getD none := by
    simp [pyGet, List.getD]
  rcases h : cs[n]? with _ | o
  · rw [htake, h]
    simp [hget, h]
  · rw [htake, h]
    simp only [Option.toList_some]
    rw [lastSome_append_singleton, hget, h]
    rfl

theorem atr_fold_spec (hs ls cs : List (Option ℚ)) (n : Nat) :
    (List.range n).foldl
        (fun st i => atrStep st (pyGet hs i) (pyGet ls i) (pyGet cs i)) (none, []) =
      (lastSome (cs.take n), (List.range n).filterMap (trAt hs ls cs)) := by
  induction n with
  | zero =>
      simp [lastSome]
  | succ n ih =>
      rw [List.range_succ, List.foldl_append, List.filterMap_append, ih]
      simp only [List.foldl_cons, List.foldl_nil]
      rcases hh : pyGet hs n with _ | hv <;> rcases hl : pyGet ls n with _ | lv
      · simp [atrStep, trAt, hh, hl, lastSome_take_succ]
      · simp [atrStep, trAt, hh, hl, lastSome_take_succ]
      · simp [atrStep, trAt, hh, hl, lastSome_take_succ]
      · simp [atrStep, trAt, hh, hl, lastSome_take_succ]

theorem trueRanges_eq_trSpecList (hs ls cs : List (Option ℚ)) :
    trueRanges hs ls cs = trSpecList hs ls cs := by
  unfold trueRanges trSpecList
  rw [atr_fold_spec]

/-- C4: the compute_atr loop produces exactly the specified true ranges
(max of high-low and the two prev-close distances, high-low for the first
session, skipping sessions with a missing high or low while carrying the last
valid close forward), and the result is the simple mean of the last up-to-n
valid true-range values: the mean of all available values when fewer than the
window exist (not NaN), the mean of the last n when at least n exist, and NaN
exactly when no valid true range exists. -/
theorem compute_atr_true_range_and_mean (hs ls cs : List (Option ℚ)) (w : Nat) :
    (trueRanges hs ls cs = trSpecList hs ls cs) ∧
    (trueRanges hs ls cs = [] → compute_atr hs ls cs w = .nan) ∧
    (trueRanges hs ls cs ≠ [] → (trueRanges hs ls cs).length < w →
        compute_atr hs ls cs w =
          .fin ((trueRanges hs ls cs).sum / ((trueRanges hs ls cs).length : ℚ))) ∧
    (0 < w → w ≤ (trueRanges hs ls cs).length →
        compute_atr hs ls cs w =
          .fin (((trueRanges hs ls cs).drop ((trueRanges hs ls cs).length - w)).sum
            / (w : ℚ))) := by
  refine ⟨trueRanges_eq_trSpecList hs ls cs, ?_, ?_, ?_⟩
  · intro h
    unfold compute_atr
    rw [if_pos h]
  · intro hne hlt
    unfold compute_atr
    rw [if_neg hne]
    rw [pySliceLast_of_length_le (le_of_lt hlt)]
    unfold pyMean
    rw [if_neg hne]
  · intro hw hle
    have hne : trueRanges hs ls cs ≠ [] := by
      intro h
      rw [h] at hle
      simp at hle
      omega
    unfold compute_atr
    rw [if_neg hne]
    have hslice : pySliceLast (trueRanges hs ls cs) w =
        (trueRanges hs ls cs).drop ((trueRanges hs ls cs).length - w) := by
      unfold pySliceLast
      rw [if_neg (by omega)]
    rw [hslice]
    have hlen : ((trueRanges hs ls cs).drop ((trueRanges hs ls cs).length - w)).length = w := by
      rw [List.length_drop]
      omega
    unfold pyMean
    rw [if_neg (by
      intro h
      have := congrArg List.length h
      rw [hlen] at this
      simp at this
      omega)]
    rw [hlen]

/-- Witness for C4 at concrete inputs: two sessions give true ranges [2, 3];
with window 5 the mean of both is returned, and an empty input gives NaN. -/
theorem compute_atr_true_range_and_mean_witness :
    compute_atr [some 5, some 7] [some 3, some 4] [some 4, some 6] 5 = .fin (5 / 2) ∧
    compute_atr [] [] [] 20 = .nan := by
  have htr : trueRanges [some 5, some 7] [some 3, some 4] [some 4, some 6] = [2, 3] := by
    norm_num [trueRanges, atrLen, atrStep, pyGet, List.range_succ]
  constructor
  · have h := (compute_atr_true_range_and_mean
      [some 5, some 7] [some 3, some 4] [some 4, some 6] 5).2.2.1
      (by rw [htr]; decide) (by rw [htr]; decide)
    rw [h, htr]
    norm_num
  · exact (compute_atr_true_range_and_mean [] [] [] 20).2.1 (by decide)

/-- C3 counterexample: with exactly one valid true-range value and window 5
(so between 1 and n-1 valid values), compute_atr returns the value itself,
not the NaN sentinel. -/
theorem compute_atr_short_window_counterexample :
    (trueRanges [some 5] [some 3] [some 4]).length = 1 ∧ (1 : Nat) < 5 ∧
    compute_atr [some 5] [some 3] [some 4] 5 = .fin 2 ∧
    compute_atr [some 5] [some 3] [some 4] 5 ≠ .nan := by
  have htr : trueRanges [some 5] [some 3] [some 4] = [2] := by
    norm_num [trueRanges, atrLen, atrStep, pyGet, List.range_succ]
  have hval : compute_atr [some 5] [some 3] [some 4] 5 = .fin 2 := by
    unfold compute_atr
    rw [htr]
    norm_num [pyMean, pySliceLast]
  refine ⟨by rw [htr]; rfl, by decide, hval, by rw [hval]; intro h; exact FVal.noConfusion h⟩

/-- C3 as amended: a moving average over window n is NaN whenever fewer than n
valid closes exist, while compute_atr with fewer than window valid true-range
values (but at least one) returns the mean of exactly the available values, and
is NaN only when zero valid true ranges exist. -/
theorem window_insufficiency_policy (closes : List ℚ) (hs ls cs : List (Option ℚ))
    (n w : Nat) :
    (closes.length < n → ma_last closes n = .nan) ∧
    (trueRanges hs ls cs = [] → compute_atr hs ls cs w = .nan) ∧
    (trueRanges hs ls cs ≠ [] → (trueRanges hs ls cs).length < w →
        compute_atr hs ls cs w =
          .fin ((trueRanges hs ls cs).sum / ((trueRanges hs ls cs).length : ℚ))) := by
  refine ⟨?_, ?_, ?_⟩
  · intro h
    unfold ma_last
    rw [if_pos h]
  · intro h
    unfold compute_atr
    rw [if_pos h]
  · intro hne hlt
    unfold compute_atr
    rw [if_neg hne, pySliceLast_of_length_le (le_of_lt hlt)]
    unfold pyMean
    rw [if_neg hne]

/-- Witness for the amended C3 at concrete inputs. -/
theorem window_insufficiency_policy_witness :
    ma_last [1, 2, 3] 20 = .nan ∧
    compute_atr [some 5] [some 3] [some 4] 5 = .fin 2 := by
  have htr : trueRanges [some 5] [some 3] [some 4] = [2] := by
    norm_num [trueRanges, atrLen, atrStep, pyGet, List.range_succ]
  constructor
  · exact (window_insufficiency_policy [1, 2, 3] [] [] [] 20 0).1 (by decide)
  · have h := (window_insufficiency_policy [] [some 5] [some 3] [some 4] 0 5).2.2
      (by rw [htr]; decide) (by rw [htr]; decide)
    rw [h, htr]
    norm_num

/-- C5: ma_last returns NaN whenever the close sequence has fewer than n
elements, and on a sequence of exactly n (with n positive) elements it returns
exactly the arithmetic mean of the sequence. -/
theorem ma_last_window_policy (closes : List ℚ) (n : Nat) :
    (closes.length < n → ma_last closes n = .nan) ∧
    (closes.length = n → 0 < n → ma_last closes n = .fin (closes.sum / (n : ℚ))) := by
  constructor
  · intro h
    unfold ma_last
    rw [if_pos h]
  · intro hlen hpos
    unfold ma_last
    rw [if_neg (by omega)]
    have hslice : pySliceLast closes n = closes := pySliceLast_of_length_le (le_of_eq hlen)
    rw [hslice]
    unfold pyMean
    have hne : closes ≠ [] := by
      intro hnil
      rw [hnil] at hlen
      simp at hlen
      omega
    rw [if_neg hne, hlen]

/-- Witness for C5 at a concrete input. -/
theorem ma_last_window_policy_witness :
    ma_last [1, 2] 3 = .nan ∧ ma_last [1, 2, 3] 3 = .fin 2 := by
  constructor
  · exact (ma_last_window_policy [1, 2] 3).1 (by decide)
  · have h := (ma_last_window_policy [1, 2, 3] 3).2 (by decide) (by decide)
    rw [h]
    norm_num

theorem diffs_fold_some (xs : List ℚ) : ∀ (prev : ℚ) (acc : List ℚ),
    (xs.map some).foldl diffStep (some prev, acc) =
      (some (xs.getLastD prev), acc ++ diffsFrom prev xs) := by
  induction xs with
  | nil => intro prev acc; simp [diffsFrom]
  | cons x xs ih =>
      intro prev acc
      simp only [List.map_cons, List.foldl_cons]
      have hstep : diffStep (some prev, acc) (some x) = (some x, acc ++ [x - prev]) := rfl
      rw [hstep, ih x (acc ++ [x - prev]), List.getLastD_cons]
      simp [diffsFrom]

theorem diffsOf_map_some (x : ℚ) (xs : List ℚ) :
    diffsOf ((x :: xs).map some) = diffsFrom x xs := by
  unfold diffsOf
  simp only [List.map_cons, List.foldl_cons]
  have hstep : diffStep (none, []) (some x) = (some x, []) := rfl
  rw [hstep, diffs_fold_some]
  simp

theorem diffsFrom_length (prev : ℚ) (xs : List ℚ) :
    (diffsFrom prev xs).length = xs.length := by
  induction xs generalizing prev with
  | nil => rfl
  | cons x xs ih => simp [diffsFrom, ih]

theorem diffsFrom_pos {prev : ℚ} {xs : List ℚ} (h : List.Chain' (· < ·) (prev :: xs)) :
    ∀ d ∈ diffsFrom prev xs, 0 < d := by
  induction xs generalizing prev with
  | nil => intro d hd; simp [diffsFrom] at hd
  | cons x xs ih =>
      intro d hd
      rw [List.chain'_cons] at h
      simp only [diffsFrom, List.mem_cons] at hd
      rcases hd with hd | hd
      · rw [hd]; linarith [h.1]
      · exact ih h.2 d hd

theorem diffsFrom_neg {prev : ℚ} {xs : List ℚ} (h : List.Chain' (· > ·) (prev :: xs)) :
    ∀ d ∈ diffsFrom prev xs, d < 0 := by
  induction xs generalizing prev with
  | nil => intro d hd; simp [diffsFrom] at hd
  | cons x xs ih =>
      intro d hd
      rw [List.chain'_cons] at h
      simp only [diffsFrom, List.mem_cons] at hd
      rcases hd with hd | hd
      · rw [hd]; have := h.1; linarith
      · exact ih h.2 d hd

theorem wilder_fold_gain_pos (pairs : List (ℚ × ℚ)) :
    ∀ p : ℚ × ℚ, (∀ gl ∈ pairs, 0 ≤ gl.1 ∧ gl.2 = 0) → 0 < p.1 → p.2 = 0 →
      0 < (pairs.foldl wilderStep p).1 ∧ (pairs.foldl wilderStep p).2 = 0 := by
  induction pairs with
  | nil => intro p _ h1 h2; exact ⟨h1, h2⟩
  | cons gl t ih =>
      intro p hmem h1 h2
      simp only [List.foldl_cons]
      have hgl := hmem gl (List.mem_cons_self gl t)
      refine ih (wilderStep p gl) (fun x hx => hmem x (List.mem_cons_of_mem gl hx)) ?_ ?_
      · unfold wilderStep
        have : 0 < p.1 * 13 + gl.1 := by nlinarith [hgl.1]
        positivity
      · unfold wilderStep
        simp [h2, hgl.2]

theorem wilder_fold_loss_pos (pairs : List (ℚ × ℚ)) :
    ∀ p : ℚ × ℚ, (∀ gl ∈ pairs, gl.1 = 0 ∧ 0 ≤ gl.2) → p.1 = 0 → 0 < p.2 →
      (pairs.foldl wilderStep p).1 = 0 ∧ 0 < (pairs.foldl wilderStep p).2 := by
  induction pairs with
  | nil => intro p _ h1 h2; exact ⟨h1, h2⟩
  | cons gl t ih =>
      intro p hmem h1 h2
      simp only [List.foldl_cons]
      have hgl := hmem gl (List.mem_cons_self gl t)
      refine ih (wilderStep p gl) (fun x hx => hmem x (List.mem_cons_of_mem gl hx)) ?_ ?_
      · unfold wilderStep
        simp [h1, hgl.1]
      · unfold wilderStep
        have : 0 < p.2 * 13 + gl.2 := by nlinarith [hgl.2]
        positivity

theorem wilderAvgs_of_all_pos {diffs : List ℚ} (h14 : 14 ≤ diffs.length)
    (hpos : ∀ d ∈ diffs, 0 < d) :
    0 < (wilderAvgs diffs).1 ∧ (wilderAvgs diffs).2 = 0 := by
  unfold wilderAvgs
  set gains := diffs.map (fun d => max d 0) with hg
  set losses := diffs.map (fun d => max (-d) 0) with hl
  have hgains : ∀ g ∈ gains, 0 < g := by
    intro g hgmem
    rw [hg] at hgmem
    obtain ⟨d, hd, rfl⟩ := List.mem_map.mp hgmem
    have := hpos d hd
    rw [max_eq_left (le_of_lt this)]
    exact this
  have hlosses : ∀ g ∈ losses, g = 0 := by
    intro g hgmem
    rw [hl] at hgmem
    obtain ⟨d, hd, rfl⟩ := List.mem_map.mp hgmem
    have := hpos d hd
    rw [max_eq_right (by linarith)]
  have hag0 : 0 < (gains.take 14).sum / 14 := by
    have hne : gains.take 14 ≠ [] := by
      have : (gains.take 14).length = 14 := by
        rw [List.length_take]
        have : gains.length = diffs.length := by rw [hg]; simp
        omega
      intro hnil
      rw [hnil] at this
      simp at this
    have hsum : 0 < (gains.take 14).sum :=
      List.sum_pos _ (fun x hx => hgains x (List.mem_of_mem_take hx)) hne
    positivity
  have hal0 : (losses.take 14).sum / 14 = 0 := by
    have hsum : (losses.take 14).sum = 0 :=
      List.sum_eq_zero (fun x hx => hlosses x (List.mem_of_mem_take hx))
    rw [hsum]
    norm_num
  refine wilder_fold_gain_pos _ _ ?_ hag0 hal0
  intro gl hgl
  obtain ⟨h1, h2⟩ := List.of_mem_zip hgl
  exact ⟨le_of_lt (hgains _ (List.mem_of_mem_drop h1)), hlosses _ (List.mem_of_mem_drop h2)⟩

theorem wilderAvgs_of_all_neg {diffs : List ℚ} (h14 : 14 ≤ diffs.length)
    (hneg : ∀ d ∈ diffs, d < 0) :
    (wilderAvgs diffs).1 = 0 ∧ 0 < (wilderAvgs diffs).2 := by
  unfold wilderAvgs
  set gains := diffs.map (fun d => max d 0) with hg
  set losses := diffs.map (fun d => max (-d) 0) with hl
  have hgains : ∀ g ∈ gains, g = 0 := by
    intro g hgmem
    rw [hg] at hgmem
    obtain ⟨d, hd, rfl⟩ := List.mem_map.mp hgmem
    have := hneg d hd
    rw [max_eq_right (by linarith)]
  have hlosses : ∀ g ∈ losses, 0 < g := by
    intro g hgmem
    rw [hl] at hgmem
    obtain ⟨d, hd, rfl⟩ := List.mem_map.mp hgmem
    have := hneg d hd
    rw [max_eq_left (by linarith)]
    linarith
  have hag0 : (gains.take 14).sum / 14 = 0 := by
    have hsum : (gains.take 14).sum = 0 :=
      List.sum_eq_zero (fun x hx => hgains x (List.mem_of_mem_take hx))
    rw [hsum]
    norm_num
  have hal0 : 0 < (losses.take 14).sum / 14 := by
    have hne : losses.take 14 ≠ [] := by
      have : (losses.take 14).length = 14 := by
        rw [List.length_take]
        have : losses.length = diffs.length := by rw [hl]; simp
        omega
      intro hnil
      rw [hnil] at this
      simp at this
    have hsum : 0 < (losses.take 14).sum :=
      List.sum_pos _ (fun x hx => hlosses x (List.mem_of_mem_take hx)) hne
    positivity
  refine wilder_fold_loss_pos _ _ ?_ hag0 hal0
  intro gl hgl
  obtain ⟨h1, h2⟩ := List.of_mem_zip hgl
  exact ⟨hgains _ (List.mem_of_mem_drop h1), le_of_lt (hlosses _ (List.mem_of_mem_drop h2))⟩

/-- C6: on at least 15 strictly increasing closes Wilder RSI(14) is exactly
100; on at least 15 strictly decreasing closes it is exactly 0; and whenever
the final avg_loss is 0 the result is 100 if avg_gain is positive and 50
otherwise. -/
theorem rsi_wilder_14_monotone_and_zero_loss (l : List ℚ) (closes : List (Option ℚ)) :
    (15 ≤ l.length → l.Chain' (· < ·) → rsi_wilder_14 (l.map some) = .fin 100) ∧
    (15 ≤ l.length → l.Chain' (· > ·) → rsi_wilder_14 (l.map some) = .fin 0) ∧
    (15 ≤ closes.length → 14 ≤ (diffsOf closes).length →
      (wilderAvgs (diffsOf closes)).2 = 0 →
      rsi_wilder_14 closes =
        (if 0 < (wilderAvgs (diffsOf closes)).1 then .fin 100 else .fin 50)) := by
  refine ⟨?_, ?_, ?_⟩
  · intro h15 hmono
    obtain ⟨x, xs, rfl⟩ : ∃ x xs, l = x :: xs := by
      cases l with
      | nil => simp at h15
      | cons x xs => exact ⟨x, xs, rfl⟩
    have hdiffs : diffsOf ((x :: xs).map some) = diffsFrom x xs := diffsOf_map_some x xs
    have hlen : (diffsOf ((x :: xs).map some)).length = xs.length := by
      rw [hdiffs, diffsFrom_length]
    have h14 : 14 ≤ (diffsOf ((x :: xs).map some)).length := by
      simp only [List.length_cons] at h15
      omega
    have hpos : ∀ d ∈ diffsOf ((x :: xs).map some), 0 < d := by
      rw [hdiffs]
      exact diffsFrom_pos hmono
    obtain ⟨hag, hal⟩ := wilderAvgs_of_all_pos h14 hpos
    unfold rsi_wilder_14
    rw [if_neg (by simp only [List.length_map, List.length_cons]
                   simp only [List.length_cons] at h15
                   omega)]
    simp only
    rw [if_neg (by omega), if_pos hal, if_pos hag]
  · intro h15 hmono
    obtain ⟨x, xs, rfl⟩ : ∃ x xs, l = x :: xs := by
      cases l with
      | nil => simp at h15
      | cons x xs => exact ⟨x, xs, rfl⟩
    have hdiffs : diffsOf ((x :: xs).map some) = diffsFrom x xs := diffsOf_map_some x xs
    have hlen : (diffsOf ((x :: xs).map some)).length = xs.length := by
      rw [hdiffs, diffsFrom_length]
    have h14 : 14 ≤ (diffsOf ((x :: xs).map some)).length := by
      simp only [List.length_cons] at h15
      omega
    have hneg : ∀ d ∈ diffsOf ((x :: xs).map some), d < 0 := by
      rw [hdiffs]
      exact diffsFrom_neg hmono
    obtain ⟨hag, hal⟩ := wilderAvgs_of_all_neg h14 hneg
    unfold rsi_wilder_14
    rw [if_neg (by simp only [List.length_map, List.length_cons]
                   simp only [List.length_cons] at h15
                   omega)]
    simp only
    rw [if_neg (by omega), if_neg (by intro h; rw [h] at hal; exact lt_irrefl 0 hal)]
    rw [hag]
    norm_num
  · intro h15 h14 hal
    unfold rsi_wilder_14
    rw [if_neg (by omega)]
    simp only
    rw [if_neg (by omega), if_pos hal]

/-- Witness for C6 at concrete inputs (closes 0..14 rising, 14..0 falling). -/
theorem rsi_wilder_14_monotone_and_zero_loss_witness :
    rsi_wilder_14 (([0, 1, 2, 3, 4, 5, 6, 7, 8, 9, 10, 11, 12, 13, 14] :
        List ℚ).map some) = .fin 100 ∧
    rsi_wilder_14 (([14, 13, 12, 11, 10, 9, 8, 7, 6, 5, 4, 3, 2, 1, 0] :
        List ℚ).map some) = .fin 0 := by
  constructor
  · exact (rsi_wilder_14_monotone_and_zero_loss
      [0, 1, 2, 3, 4, 5, 6, 7, 8, 9, 10, 11, 12, 13, 14] []).1
      (by decide) (by norm_num)
  · exact (rsi_wilder_14_monotone_and_zero_loss
      [14, 13, 12, 11, 10, 9, 8, 7, 6, 5, 4, 3, 2, 1, 0] []).2.1
      (by decide) (by norm_num)

theorem all_zero_of_sum_eq_zero :
    ∀ {l : List ℚ}, (∀ x ∈ l, 0 ≤ x) → l.sum = 0 → ∀ x ∈ l, x = 0 := by
  intro l
  induction l with
  | nil => intro _ _ x hx; simp at hx
  | cons a t ih =>
      intro hnn hsum x hx
      have hta : 0 ≤ a := hnn a (List.mem_cons_self a t)
      have htsum : 0 ≤ t.sum := List.sum_nonneg (fun z hz => hnn z (List.mem_cons_of_mem a hz))
      rw [List.sum_cons] at hsum
      have ha0 : a = 0 := by linarith
      have ht0 : t.sum = 0 := by linarith
      rcases List.mem_cons.mp hx with rfl | hx
      · exact ha0
      · exact ih (fun z hz => hnn z (List.mem_cons_of_mem a hz)) ht0 x hx

theorem varX_pos {y : List ℚ} (h2 : 2 ≤ y.length) : 0 < varX y := by
  set mx := meanQ (idxList y.length) with hmx
  have hnn : ∀ x ∈ (idxList y.length).map (fun x => (x - mx) ^ 2), 0 ≤ x := by
    intro x hx
    obtain ⟨z, _, rfl⟩ := List.mem_map.mp hx
    positivity
  rcases lt_or_le 0 (varX y) with h | h
  · exact h
  · exfalso
    have hsum0 : varX y = 0 :=
      le_antisymm h (List.sum_nonneg hnn)
    have hall := all_zero_of_sum_eq_zero hnn hsum0
    have h0x : (0 : ℚ) ∈ idxList y.length := by
      have h0n : (0 : ℕ) ∈ List.range y.length := List.mem_range.mpr (by omega)
      have hm : ((0 : ℕ) : ℚ) ∈ idxList y.length := by
        unfold idxList
        exact List.mem_map_of_mem (fun i : ℕ => (i : ℚ)) h0n
      rwa [Nat.cast_zero] at hm
    have h1x : (1 : ℚ) ∈ idxList y.length := by
      have h1n : (1 : ℕ) ∈ List.range y.length := List.mem_range.mpr (by omega)
      have hm : ((1 : ℕ) : ℚ) ∈ idxList y.length := by
        unfold idxList
        exact List.mem_map_of_mem (fun i : ℕ => (i : ℚ)) h1n
      rwa [Nat.cast_one] at hm
    have h0mem : ((0 : ℚ) - mx) ^ 2 ∈ (idxList y.length).map (fun x => (x - mx) ^ 2) :=
      List.mem_map_of_mem _ h0x
    have h1mem : ((1 : ℚ) - mx) ^ 2 ∈ (idxList y.length).map (fun x => (x - mx) ^ 2) :=
      List.mem_map_of_mem _ h1x
    have e0 := hall _ h0mem
    have e1 := hall _ h1mem
    have hmx0 : mx = 0 := by nlinarith [sq_nonneg ((0 : ℚ) - mx)]
    have hmx1 : mx = 1 := by nlinarith [sq_nonneg ((1 : ℚ) - mx)]
    rw [hmx0] at hmx1
    norm_num at hmx1

theorem covXY_eq_zero_of_varY_eq_zero {y : List ℚ} (h : varY y = 0) : covXY y = 0 := by
  have hnn : ∀ x ∈ y.map (fun v => (v - meanQ y) ^ 2), 0 ≤ x := by
    intro x hx
    obtain ⟨z, _, rfl⟩ := List.mem_map.mp hx
    positivity
  have hall := all_zero_of_sum_eq_zero hnn h
  unfold covXY
  refine List.sum_eq_zero ?_
  intro x hx
  obtain ⟨p, hp, rfl⟩ := List.mem_map.mp hx
  have hp2 : p.2 ∈ y := (List.of_mem_zip hp).2
  have hsq : (p.2 - meanQ y) ^ 2 = 0 :=
    hall _ (List.mem_map.mpr ⟨p.2, hp2, rfl⟩)
  have : p.2 - meanQ y = 0 := by
    nlinarith [sq_nonneg (p.2 - meanQ y)]
  rw [this, mul_zero]

/-- C7 as amended: linreg_slope_r2 returns both values NaN when y has fewer
than 2 points; with at least 2 points var_x is automatically positive, the
slope component is always the closed-form least-squares slope cov/var_x
(finite, equal to 0 when var_y is zero since then cov is zero), and only the
R-squared component is NaN when var_y is zero, being the squared Pearson
correlation times 100 otherwise. -/
theorem linreg_slope_r2_policy (y : List ℚ) :
    (y.length < 2 → linreg_slope_r2 y = (.nan, .nan)) ∧
    (2 ≤ y.length → 0 < varX y) ∧
    (2 ≤ y.length → (linreg_slope_r2 y).1 = .fin (covXY y / varX y)) ∧
    (2 ≤ y.length → varY y = 0 →
      (linreg_slope_r2 y).1 = .fin 0 ∧ (linreg_slope_r2 y).2 = .nan) ∧
    (2 ≤ y.length → varY y ≠ 0 →
      (linreg_slope_r2 y).2 = .fin (covXY y ^ 2 / (varX y * varY y) * 100)) := by
  refine ⟨?_, fun h => varX_pos h, ?_, ?_, ?_⟩
  · intro h
    unfold linreg_slope_r2
    rw [if_pos h]
  · intro h
    unfold linreg_slope_r2
    rw [if_neg (by omega), if_neg (ne_of_gt (varX_pos h))]
  · intro h hY
    unfold linreg_slope_r2
    rw [if_neg (by omega), if_neg (ne_of_gt (varX_pos h))]
    constructor
    · rw [covXY_eq_zero_of_varY_eq_zero hY]
      norm_num
    · rw [if_pos (Or.inr hY)]
  · intro h hY
    unfold linreg_slope_r2
    rw [if_neg (by omega), if_neg (ne_of_gt (varX_pos h))]
    simp only
    rw [if_neg (by
      rintro (hx | hy)
      · exact ne_of_gt (varX_pos h) hx
      · exact hY hy)]

/-- C7 counterexample: on the constant series [1, 1] the variance of y is
zero yet the returned slope is the finite value 0, not NaN (only the
R-squared component is NaN), contradicting the claim that both returned
values are NaN whenever the variance of y is zero. -/
theorem linreg_slope_r2_constant_y_counterexample :
    2 ≤ ([1, 1] : List ℚ).length ∧ varY [1, 1] = 0 ∧
    linreg_slope_r2 [1, 1] = (.fin 0, .nan) ∧ (linreg_slope_r2 [1, 1]).1 ≠ .nan := by
  have hvy : varY ([1, 1] : List ℚ) = 0 := by
    norm_num [varY, meanQ]
  have hvx : varX ([1, 1] : List ℚ) = (1 : ℚ) / 2 := by
    norm_num [varX, meanQ, idxList, List.range_succ]
  have hcov : covXY ([1, 1] : List ℚ) = 0 := by
    norm_num [covXY, meanQ, idxList, List.range_succ]
  have hval : linreg_slope_r2 [1, 1] = (.fin 0, .nan) := by
    unfold linreg_slope_r2
    rw [if_neg (by norm_num), if_neg (by rw [hvx]; norm_num), if_pos (Or.inr hvy)]
    rw [hcov]
    norm_num
  refine ⟨by norm_num, hvy, hval, by rw [hval]; intro h; exact FVal.noConfusion h⟩

/-- Witness for the amended C7 at concrete inputs. -/
theorem linreg_slope_r2_policy_witness :
    linreg_slope_r2 [] = (.nan, .nan) ∧
    (linreg_slope_r2 [1, 2]).1 = .fin 1 ∧
    (linreg_slope_r2 [1, 2]).2 = .fin 100 := by
  have hvx : varX ([1, 2] : List ℚ) = (1 : ℚ) / 2 := by
    norm_num [varX, meanQ, idxList, List.range_succ]
  have hvy : varY ([1, 2] : List ℚ) = (1 : ℚ) / 2 := by
    norm_num [varY, meanQ]
  have hcov : covXY ([1, 2] : List ℚ) = (1 : ℚ) / 2 := by
    norm_num [covXY, meanQ, idxList, List.range_succ]
  refine ⟨(linreg_slope_r2_policy []).1 (by decide), ?_, ?_⟩
  · have h := (linreg_slope_r2_policy [1, 2]).2.2.1 (by decide)
    rw [h, hcov, hvx]
    norm_num
  · have h := (linreg_slope_r2_policy [1, 2]).2.2.2.2 (by decide) (by rw [hvy]; norm_num)
    rw [h, hcov, hvx, hvy]
    norm_num

theorem firstKeysAux_cons (seen : List String) (s : String) (rest : List String) :
    firstKeysAux seen (s :: rest) =
      if s ∈ seen then firstKeysAux seen rest else s :: firstKeysAux (s :: seen) rest := rfl

theorem mem_firstKeysAux {x : String} :
    ∀ (l seen : List String), x ∈ firstKeysAux seen l ↔ x ∈ l ∧ x ∉ seen := by
  intro l
  induction l with
  | nil => intro seen; simp [firstKeysAux]
  | cons s rest ih =>
      intro seen
      rw [firstKeysAux_cons]
      by_cases hs : s ∈ seen
      · rw [if_pos hs, ih seen]
        constructor
        · rintro ⟨h1, h2⟩
          exact ⟨List.mem_cons_of_mem s h1, h2⟩
        · rintro ⟨h1, h2⟩
          rcases List.mem_cons.mp h1 with rfl | h1
          · exact absurd hs h2
          · exact ⟨h1, h2⟩
      · rw [if_neg hs]
        constructor
        · intro hx
          rcases List.mem_cons.mp hx with rfl | hx
          · exact ⟨List.mem_cons_self _ _, hs⟩
          · obtain ⟨h1, h2⟩ := (ih (s :: seen)).mp hx
            exact ⟨List.mem_cons_of_mem s h1,
              fun hseen => h2 (List.mem_cons_of_mem s hseen)⟩
        · rintro ⟨h1, h2⟩
          rcases List.mem_cons.mp h1 with rfl | h1
          · exact List.mem_cons_self _ _
          · by_cases hxs : x = s
            · subst hxs
              exact List.mem_cons_self _ _
            · refine List.mem_cons_of_mem s ((ih (s :: seen)).mpr ⟨h1, ?_⟩)
              intro hx
              rcases List.mem_cons.mp hx with h | h
              · exact hxs h
              · exact h2 h

theorem nodup_firstKeysAux :
    ∀ (l seen : List String), (firstKeysAux seen l).Nodup := by
  intro l
  induction l with
  | nil => intro seen; simp [firstKeysAux]
  | cons s rest ih =>
      intro seen
      rw [firstKeysAux_cons]
      by_cases hs : s ∈ seen
      · rw [if_pos hs]
        exact ih seen
      · rw [if_neg hs]
        refine List.nodup_cons.mpr ⟨?_, ih (s :: seen)⟩
        intro hmem
        exact ((mem_firstKeysAux rest (s :: seen)).mp hmem).2 (List.mem_cons_self s seen)

theorem sublist_firstKeysAux :
    ∀ (l seen : List String), (firstKeysAux seen l).Sublist l := by
  intro l
  induction l with
  | nil => intro seen; simp [firstKeysAux]
  | cons s rest ih =>
      intro seen
      rw [firstKeysAux_cons]
      by_cases hs : s ∈ seen
      · rw [if_pos hs]
        exact (ih seen).cons s
      · rw [if_neg hs]
        exact (ih (s :: seen)).cons₂ s

theorem firstKeysAux_eq_filter :
    ∀ (l seen : List String),
      firstKeysAux seen l = (firstKeys l).filter (fun u => decide (u ∉ seen)) := by
  intro l
  induction l with
  | nil => intro seen; simp [firstKeys, firstKeysAux]
  | cons s rest ih =>
      intro seen
      have hbase : firstKeys (s :: rest) = s :: firstKeysAux [s] rest := by
        unfold firstKeys
        rw [firstKeysAux_cons, if_neg (List.not_mem_nil s)]
      rw [hbase, firstKeysAux_cons]
      by_cases hs : s ∈ seen
      · rw [if_pos hs]
        rw [List.filter_cons]
        rw [if_neg (by simp [hs])]
        rw [ih seen, ih [s], List.filter_filter]
        refine List.filter_congr ?_
        intro u hu
        by_cases hus : u ∈ seen
        · simp [hus]
        · have hne : u ≠ s := fun h => hus (h ▸ hs)
          simp [hus, hne]
      · rw [if_neg hs]
        rw [List.filter_cons]
        rw [if_pos (by simp [hs])]
        rw [ih (s :: seen), ih [s], List.filter_filter]
        refine congrArg (s :: ·) (List.filter_congr ?_)
        intro u hu
        by_cases hus : u = s
        · simp [hus]
        · by_cases husn : u ∈ seen
          · simp [hus, husn]
          · simp [hus, husn]

/-- C8: batch de-duplication keeps each code exactly once (no duplicates, same
membership, order preserved, first occurrence kept), reports exactly the codes
occurring more than once with their counts, and the exclude set is subtracted
only after de-duplication; on the claim's example [A, B, A, C, B] the result
is [A, B, C] with report A x2, B x2. -/
theorem dedup_first_occurrence_and_exclusion (l excl t : List String) (s : String) :
    (firstKeys l).Nodup ∧
    (∀ x, x ∈ firstKeys l ↔ x ∈ l) ∧
    (firstKeys l).Sublist l ∧
    (firstKeys (s :: t) = s :: (firstKeys t).filter (fun u => decide (u ≠ s))) ∧
    (∀ x k, (x, k) ∈ dupReport l ↔ (x ∈ l ∧ k = l.count x ∧ 1 < k)) ∧
    (∀ x, x ∈ symbolsAfterExclude l excl ↔ (x ∈ l ∧ x ∉ excl)) ∧
    (symbolsAfterExclude l excl).Sublist (firstKeys l) ∧
    firstKeys ["A", "B", "A", "C", "B"] = ["A", "B", "C"] ∧
    dupReport ["A", "B", "A", "C", "B"] = [("A", 2), ("B", 2)] := by
  have hmem : ∀ x, x ∈ firstKeys l ↔ x ∈ l := by
    intro x
    rw [firstKeys, mem_firstKeysAux l []]
    simp
  refine ⟨nodup_firstKeysAux l [], hmem, sublist_firstKeysAux l [], ?_, ?_, ?_, ?_, ?_, ?_⟩
  · have hbase : firstKeys (s :: t) = s :: firstKeysAux [s] t := by
      unfold firstKeys
      rw [firstKeysAux_cons, if_neg (List.not_mem_nil s)]
    rw [hbase, firstKeysAux_eq_filter t [s]]
    refine congrArg (s :: ·) (List.filter_congr ?_)
    intro u hu
    simp
  · intro x k
    constructor
    · intro hx
      obtain ⟨a, ha, hsome⟩ := List.mem_filterMap.mp hx
      by_cases hc : 1 < l.count a
      · rw [if_pos hc] at hsome
        obtain ⟨rfl, rfl⟩ := Prod.mk.injEq a (l.count a) x k ▸ Option.some.injEq _ _ ▸ hsome
        exact ⟨(hmem a).mp ha, rfl, hc⟩
      · rw [if_neg hc] at hsome
        exact absurd hsome (Option.noConfusion)
    · rintro ⟨hxl, rfl, hk⟩
      refine List.mem_filterMap.mpr ⟨x, (hmem x).mpr hxl, ?_⟩
      rw [if_pos hk]
  · intro x
    unfold symbolsAfterExclude
    rw [List.mem_filter]
    simp only [decide_eq_true_eq]
    rw [hmem x]
  · exact List.filter_sublist _
  · decide
  · decide

theorem mem_foldl_scanStep_of_mem (env : String → SymData) (r : Row) :
    ∀ (syms : List String) (acc : List Row), r ∈ acc → r ∈ syms.foldl (scanStep env) acc := by
  intro syms
  induction syms with
  | nil => intro acc h; exact h
  | cons x rest ih =>
      intro acc h
      rw [List.foldl_cons]
      refine ih (scanStep env acc x) ?_
      unfold scanStep
      rcases (env x).chart with e | latest
      · exact h
      · exact List.mem_append_left _ h

theorem mem_foldl_scanStep_of_ok {env : String → SymData} {s : String} {latest : ℚ}
    (hok : (env s).chart = .ok latest) :
    ∀ (syms : List String) (acc : List Row), s ∈ syms →
      ({ code := s, latest := latest,
         fund := fetch_fundamentals (env s).fundAttempts } : Row) ∈
        syms.foldl (scanStep env) acc := by
  intro syms
  induction syms with
  | nil => intro acc h; simp at h
  | cons x rest ih =>
      intro acc hmem
      rw [List.foldl_cons]
      rcases List.mem_cons.mp hmem with rfl | hmem2
      · refine mem_foldl_scanStep_of_mem env _ rest _ ?_
        unfold scanStep
        rw [hok]
        exact List.mem_append_right _ (List.mem_cons_self _ _)
      · exact ih (scanStep env acc x) hmem2

/-- C2: an exhausted fundamentals fallback chain yields the all-NaN
five-field record without raising, so a symbol whose price history succeeded
still contributes a row (with degraded fields); a price-history exception
removes exactly that symbol from the results and the loop continues over the
remaining symbols. -/
theorem fundamentals_degradation_vs_price_drop (attempts : List (Option Fund))
    (env : String → SymData) (pre post syms : List String) (s : String) :
    ((∀ a ∈ attempts, a = none) → fetch_fundamentals attempts = nan_result) ∧
    (nan_result.pe_ttm = .nan ∧ nan_result.pe_fwd = .nan ∧
      nan_result.div_yield_pct = .nan ∧ nan_result.div_yield_5y_pct = .nan ∧
      nan_result.profit_margin_pct = .nan) ∧
    (∀ e, (env s).chart = .error e →
      scanLoop env (pre ++ s :: post) = scanLoop env (pre ++ post)) ∧
    (∀ latest, s ∈ syms → (env s).chart = .ok latest →
      ({ code := s, latest := latest,
         fund := fetch_fundamentals (env s).fundAttempts } : Row) ∈ scanLoop env syms) := by
  refine ⟨?_, ⟨rfl, rfl, rfl, rfl, rfl⟩, ?_, ?_⟩
  · intro hall
    induction attempts with
    | nil => rfl
    | cons a rest ih =>
        rcases a with _ | f
        · exact ih (fun x hx => hall x (List.mem_cons_of_mem none hx))
        · exact absurd (hall (some f) (List.mem_cons_self _ _)) (Option.noConfusion)
  · intro e he
    unfold scanLoop
    rw [List.foldl_append, List.foldl_append, List.foldl_cons]
    have hstep : ∀ acc, scanStep env acc s = acc := by
      intro acc
      unfold scanStep
      rw [he]
    rw [hstep]
  · intro latest hmem hok
    exact mem_foldl_scanStep_of_ok hok syms [] hmem

/-- Witness for C2 at concrete inputs: symbol B's history fetch raises, A and
C succeed with every fundamentals attempt failing. -/
theorem fundamentals_degradation_vs_price_drop_witness :
    fetch_fundamentals [none, none] = nan_result ∧
    scanLoop
        (fun s => if s = "B" then ⟨Except.error "boom", [none, none]⟩
                  else ⟨Except.ok 1, [none, none]⟩)
        (["A"] ++ "B" :: ["C"]) =
      scanLoop
        (fun s => if s = "B" then ⟨Except.error "boom", [none, none]⟩
                  else ⟨Except.ok 1, [none, none]⟩)
        (["A"] ++ ["C"]) ∧
    ({ code := "A", latest := 1, fund := fetch_fundamentals [none, none] } : Row) ∈
      scanLoop
        (fun s => if s = "B" then ⟨Except.error "boom", [none, none]⟩
                  else ⟨Except.ok 1, [none, none]⟩)
        ["A", "B", "C"] := by
  refine ⟨?_, ?_, ?_⟩
  · exact (fundamentals_degradation_vs_price_drop [none, none]
      (fun _ => ⟨Except.ok 1, []⟩) [] [] [] "").1 (by decide)
  · exact (fundamentals_degradation_vs_price_drop []
      (fun s => if s = "B" then ⟨Except.error "boom", [none, none]⟩
                else ⟨Except.ok 1, [none, none]⟩) ["A"] ["C"] [] "B").2.2.1
      "boom" (by rfl)
  · exact (fundamentals_degradation_vs_price_drop []
      (fun s => if s = "B" then ⟨Except.error "boom", [none, none]⟩
                else ⟨Except.ok 1, [none, none]⟩) [] [] ["A", "B", "C"] "A").2.2.2
      1 (by decide) (by rfl)

/-- C9: in each of the three fundamentals tiers the dividend yield, the
trailing annual dividend yield fallback and the profit margin are scaled by
100 to percent, while the five-year average dividend yield is taken as
already expressed in percent; the HTML-scrape tier extracts exactly as the
structured-summary tier. -/
theorem fundamentals_percent_scaling_three_tiers (d e : SummaryData) (q : QuoteData) :
    (∀ v, d.sd_dividendYield = some v →
      (parseSummaryTier d).div_yield_pct = .fin (v * 100)) ∧
    (d.sd_dividendYield = none → ∀ v, d.sd_trailingAnnualDividendYield = some v →
      (parseSummaryTier d).div_yield_pct = .fin (v * 100)) ∧
    (∀ v, d.sd_fiveYearAvgDividendYield = some v →
      (parseSummaryTier d).div_yield_5y_pct = .fin v) ∧
    (∀ v, d.fd_profitMargins = some v →
      (parseSummaryTier d).profit_margin_pct = .fin (v * 100)) ∧
    (∀ v, q.dividendYield = some v →
      (parseQuoteTier q).div_yield_pct = .fin (v * 100)) ∧
    (q.dividendYield = none → ∀ v, q.trailingAnnualDividendYield = some v →
      (parseQuoteTier q).div_yield_pct = .fin (v * 100)) ∧
    (∀ v, q.fiveYearAvgDividendYield = some v →
      (parseQuoteTier q).div_yield_5y_pct = .fin v) ∧
    (∀ v, q.profitMargins = some v →
      (parseQuoteTier q).profit_margin_pct = .fin (v * 100)) ∧
    parseScrapeTier e = parseSummaryTier e := by
  refine ⟨?_, ?_, ?_, ?_, ?_, ?_, ?_, ?_, rfl⟩
  · intro v hv
    simp [parseSummaryTier, pctOfOpt, hv, Option.orElse]
  · intro hnone v hv
    simp [parseSummaryTier, pctOfOpt, hnone, hv, Option.orElse]
  · intro v hv
    simp [parseSummaryTier, asIsOfOpt, hv]
  · intro v hv
    simp [parseSummaryTier, pctOfOpt, hv]
  · intro v hv
    simp [parseQuoteTier, pctOfOpt, hv, Option.orElse]
  · intro hnone v hv
    simp [parseQuoteTier, pctOfOpt, hnone, hv, Option.orElse]
  · intro v hv
    simp [parseQuoteTier, asIsOfOpt, hv]
  · intro v hv
    simp [parseQuoteTier, pctOfOpt, hv]

/-- Witness for C9 at concrete field values. -/
theorem fundamentals_percent_scaling_three_tiers_witness :
    (parseSummaryTier
        ⟨none, none, none, none, none, some (3 / 100), none, some 4, some (12 / 100)⟩
      ).div_yield_pct = .fin ((3 / 100 : ℚ) * 100) ∧
    (parseSummaryTier
        ⟨none, none, none, none, none, some (3 / 100), none, some 4, some (12 / 100)⟩
      ).div_yield_5y_pct = .fin 4 ∧
    (parseQuoteTier ⟨none, none, none, some (2 / 100), none, some (12 / 100)⟩
      ).div_yield_pct = .fin ((2 / 100 : ℚ) * 100) ∧
    (parseQuoteTier ⟨none, none, none, some (2 / 100), none, some (12 / 100)⟩
      ).profit_margin_pct = .fin ((12 / 100 : ℚ) * 100) := by
  refine ⟨?_, ?_, ?_, ?_⟩
  · exact (fundamentals_percent_scaling_three_tiers
      ⟨none, none, none, none, none, some (3 / 100), none, some 4, some (12 / 100)⟩
      ⟨none, none, none, none, none, none, none, none, none⟩
      ⟨none, none, none, none, none, none⟩).1 (3 / 100) rfl
  · exact (fundamentals_percent_scaling_three_tiers
      ⟨none, none, none, none, none, some (3 / 100), none, some 4, some (12 / 100)⟩
      ⟨none, none, none, none, none, none, none, none, none⟩
      ⟨none, none, none, none, none, none⟩).2.2.1 4 rfl
  · exact (fundamentals_percent_scaling_three_tiers
      ⟨none, none, none, none, none, none, none, none, none⟩
      ⟨none, none, none, none, none, none, none, none, none⟩
      ⟨none, none, none, some (2 / 100), none, some (12 / 100)⟩).2.2.2.2.2.1 rfl
      (2 / 100) rfl
  · exact (fundamentals_percent_scaling_three_tiers
      ⟨none, none, none, none, none, none, none, none, none⟩
      ⟨none, none, none, none, none, none, none, none, none⟩
      ⟨none, none, none, some (2 / 100), none, some (12 / 100)⟩).2.2.2.2.2.2.2.1
      (12 / 100) rfl

theorem sortLe_total (desc : Bool) (a b : SRec) :
    sortLe desc a b = true ∨ sortLe desc b a = true := by
  rcases a with ⟨sa, _ | x⟩ <;> rcases b with ⟨sb, _ | y⟩ <;> simp [sortLe]
  rcases desc with _ | _
  · simp [le_total x y]
  · simp [le_total y x]

theorem sortLe_trans (desc : Bool) (a b c : SRec)
    (hab : sortLe desc a b = true) (hbc : sortLe desc b c = true) :
    sortLe desc a c = true := by
  rcases a with ⟨sa, _ | x⟩ <;> rcases b with ⟨sb, _ | y⟩ <;> rcases c with ⟨sc, _ | z⟩ <;>
    rcases desc with _ | _ <;> simp_all [sortLe]
  · exact le_trans hab hbc
  · exact le_trans hbc hab

theorem sortLe_imp_metricOrdered {desc : Bool} {a b : SRec}
    (h : sortLe desc a b = true) : metricOrdered desc a b := by
  rcases a with ⟨sa, _ | x⟩ <;> rcases b with ⟨sb, _ | y⟩ <;>
    rcases desc with _ | _ <;> simp_all [sortLe, metricOrdered]

theorem sortRecords_perm (desc : Bool) (rs : List SRec) :
    List.Perm (sortRecords desc rs) rs :=
  List.perm_insertionSort _ rs

theorem sortRecords_pairwise (desc : Bool) (rs : List SRec) :
    (sortRecords desc rs).Pairwise (metricOrdered desc) := by
  letI : IsTotal SRec (fun a b => sortLe desc a b = true) := ⟨sortLe_total desc⟩
  letI : IsTrans SRec (fun a b => sortLe desc a b = true) := ⟨sortLe_trans desc⟩
  have hs := List.sorted_insertionSort (fun a b => sortLe desc a b = true) rs
  exact hs.imp (fun h => sortLe_imp_metricOrdered h)

theorem mem_sortRecords {desc : Bool} {rs : List SRec} {r : SRec} :
    r ∈ sortRecords desc rs ↔ r ∈ rs :=
  List.mem_insertionSort _

/-- C10: the final sort is total over records whose metric may be NaN: the
output is a permutation of the input in which every non-finite-metric record
comes after every finite-metric record and finite-metric records are ordered
by value (ascending, reversed under the descending flag), and the key
comparison is total (defined on every pair, so sorting never fails). -/
theorem sort_key_total_nan_last (desc : Bool) (rs : List SRec) :
    List.Perm (sortRecords desc rs) rs ∧
    (sortRecords desc rs).Pairwise (metricOrdered desc) ∧
    (∀ a b : SRec, sortLe desc a b = true ∨ sortLe desc b a = true) :=
  ⟨sortRecords_perm desc rs, sortRecords_pairwise desc rs, sortLe_total desc⟩

/-- C1: over a batch of finite-Delta% records, a numeric threshold at most 0
keeps exactly the records with Delta% at most the threshold and the sort is
ascending in Delta%; a positive threshold keeps exactly the records with
Delta% strictly above it and the sort is descending; with no threshold every
record is kept and the sort is ascending. -/
theorem scan_stocks_delta_filter_sort (rs : List SRec)
    (hfin : ∀ r ∈ rs, r.2.isFinite = true) :
    (∀ thr : ℚ, thr ≤ 0 →
      List.Perm (deltaPipeline (some thr) rs) (rs.filter (fun r => finLe r.2 thr)) ∧
      (deltaPipeline (some thr) rs).Pairwise (fun a b => a.2.val ≤ b.2.val)) ∧
    (∀ thr : ℚ, 0 < thr →
      List.Perm (deltaPipeline (some thr) rs) (rs.filter (fun r => finGt r.2 thr)) ∧
      (deltaPipeline (some thr) rs).Pairwise (fun a b => b.2.val ≤ a.2.val)) ∧
    (List.Perm (deltaPipeline none rs) rs ∧
      (deltaPipeline none rs).Pairwise (fun a b => a.2.val ≤ b.2.val)) := by
  have hbase : baseFiltered rs = rs := List.filter_eq_self.mpr hfin
  refine ⟨?_, ?_, ?_⟩
  · intro thr hthr
    have hfilter : deltaFilter (some thr) (baseFiltered rs) =
        rs.filter (fun r => finLe r.2 thr) := by
      rw [hbase]
      simp only [deltaFilter]
      rw [if_pos hthr]
      refine List.filter_congr ?_
      intro r hr
      rw [hfin r hr, Bool.true_and]
    have hdesc : deltaDescending (some thr) = false := by
      simp only [deltaDescending, decide_eq_false_iff_not]
      exact not_lt.mpr hthr
    constructor
    · rw [deltaPipeline, hfilter, hdesc]
      exact sortRecords_perm false _
    · rw [deltaPipeline, hfilter, hdesc]
      have hp := sortRecords_pairwise false (rs.filter (fun r => finLe r.2 thr))
      refine hp.imp_of_mem ?_
      intro a b ha hb hab
      have hafin : a.2.isFinite = true := by
        have := List.mem_filter.mp (mem_sortRecords.mp ha)
        rcases a with ⟨sa, _ | x⟩
        · simp [finLe] at this
        · rfl
      have hbfin : b.2.isFinite = true := by
        have := List.mem_filter.mp (mem_sortRecords.mp hb)
        rcases b with ⟨sb, _ | y⟩
        · simp [finLe] at this
        · rfl
      rcases a with ⟨sa, _ | x⟩ <;> rcases b with ⟨sb, _ | y⟩ <;>
        simp_all [metricOrdered, FVal.isFinite, FVal.val]
  · intro thr hthr
    have hfilter : deltaFilter (some thr) (baseFiltered rs) =
        rs.filter (fun r => finGt r.2 thr) := by
      rw [hbase]
      simp only [deltaFilter]
      rw [if_neg (not_le.mpr hthr)]
      refine List.filter_congr ?_
      intro r hr
      rw [hfin r hr, Bool.true_and]
    have hdesc : deltaDescending (some thr) = true := by
      simp only [deltaDescending]
      simpa using hthr
    constructor
    · rw [deltaPipeline, hfilter, hdesc]
      exact sortRecords_perm true _
    · rw [deltaPipeline, hfilter, hdesc]
      have hp := sortRecords_pairwise true (rs.filter (fun r => finGt r.2 thr))
      refine hp.imp_of_mem ?_
      intro a b ha hb hab
      have hafin : a.2.isFinite = true := by
        have := List.mem_filter.mp (mem_sortRecords.mp ha)
        rcases a with ⟨sa, _ | x⟩
        · simp [finGt] at this
        · rfl
      have hbfin : b.2.isFinite = true := by
        have := List.mem_filter.mp (mem_sortRecords.mp hb)
        rcases b with ⟨sb, _ | y⟩
        · simp [finGt] at this
        · rfl
      rcases a with ⟨sa, _ | x⟩ <;> rcases b with ⟨sb, _ | y⟩ <;>
        simp_all [metricOrdered, FVal.isFinite, FVal.val]
  · have hfilter : deltaFilter none (baseFiltered rs) = rs := by
      rw [hbase]
      rfl
    constructor
    · rw [deltaPipeline, hfilter]
      exact sortRecords_perm _ rs
    · rw [deltaPipeline, hfilter]
      have hp := sortRecords_pairwise (deltaDescending none) rs
      refine hp.imp_of_mem ?_
      intro a b ha hb hab
      have hafin := hfin a (mem_sortRecords.mp ha)
      have hbfin := hfin b (mem_sortRecords.mp hb)
      rcases a with ⟨sa, _ | x⟩ <;> rcases b with ⟨sb, _ | y⟩ <;>
        simp_all [metricOrdered, FVal.isFinite, FVal.val, deltaDescending]

/-- Witness for C1 at a concrete batch and threshold. -/
theorem scan_stocks_delta_filter_sort_witness :
    List.Perm
      (deltaPipeline (some (-1)) [("A", .fin 2), ("B", .fin (-7)), ("C", .fin (-3))])
      ([("A", .fin 2), ("B", .fin (-7)), ("C", .fin (-3))].filter
        (fun r => finLe r.2 (-1))) ∧
    (deltaPipeline (some (-1))
        [("A", .fin 2), ("B", .fin (-7)), ("C", .fin (-3))]).Pairwise
      (fun a b => a.2.val ≤ b.2.val) :=
  (scan_stocks_delta_filter_sort
    [("A", .fin 2), ("B", .fin (-7)), ("C", .fin (-3))] (by decide)).1
    (-1) (by norm_num)

end StockScan
